import Mathlib

/-!
# The MPMC ring of `src/mpmc_ring.h`, run by a single thread

A shallow embedding of the ring buffer of `mpmc_ring.h`.  Counters are
`unsigned int` / `atomic_t` values, embedded as natural numbers with explicit
reduction modulo `2 ^ 32` (an `atomic_t` holds the same 32 bits as a signed
`int`; loads, stores and equality tests do not depend on the sign).  A memory
region reached through a pointer is a map
from byte offsets to byte values.  The embedding is sequential: one thread
runs each call to completion, so the fences and the stall hint do nothing and
are left out, and a loop that can only be left through the action of another
thread never exits.  Loops take a fuel argument; `none` means that the call
has not returned within that many passes.
-/

namespace MpmcRing

/-! ## Machine arithmetic -/

/-- Addition of two `unsigned int` values. -/
def u32_add (a b : Nat) : Nat := (a + b) % 2 ^ 32

/-- Subtraction of two `unsigned int` values, wrapping below zero. -/
def u32_sub (a b : Nat) : Nat := (a + (2 ^ 32 - b % 2 ^ 32)) % 2 ^ 32

/-- Multiplication of two `unsigned int` values. -/
def u32_mul (a b : Nat) : Nat := (a * b) % 2 ^ 32

/-- A region of memory seen through a pointer: byte offset to byte value. -/
abbrev Mem := Nat → Nat

/-- The call `memcpy(dst + d, src + s, n)`: the `n` bytes from offset `s` of
`src` land at offset `d` of `dst`; the two regions are distinct objects. -/
def memcpy (dst : Mem) (d : Nat) (src : Mem) (s : Nat) (n : Nat) : Mem :=
  fun a => if d ≤ a ∧ a < d + n then src (s + (a - d)) else dst a

/-! ## Atomic primitives -/

/-- Result of `atomic_cmpxchg`: the target afterwards and the value it held. -/
structure cmpxchg_result where
  target : Nat
  prev : Nat
deriving DecidableEq, Repr

/-- Modelled from the spec: the kernel primitive `atomic_cmpxchg` (from
`linux/atomic.h`, not in this repository) is the compare-and-swap of the
atomic primitive contract: it replaces the value of the location with the new
value only if it currently equals the expected value, and yields the value
the location held before the operation. -/
def atomic_cmpxchg (target old new : Nat) : cmpxchg_result :=
  { target := if target = old then new else target, prev := target }

/-- Modelled from the spec: the kernel primitive `atomic_read`, the atomic
unsigned load of the atomic primitive contract. -/
def atomic_read (src : Nat) : Nat := src

/-- The macro `ck_pr_load_uint(SRC)`. -/
def ck_pr_load_uint (src : Nat) : Nat := atomic_read src

/-- Result of a compare-and-swap adapter: the target afterwards, the value
left in the output parameter and the returned boolean. -/
structure cas_result where
  target : Nat
  v : Nat
  ret : Bool
deriving DecidableEq, Repr

/-- The function `ck_pr_cas_uint_value(target, old, new, v)`. -/
def ck_pr_cas_uint_value (target old new : Nat) : cas_result :=
  let prev := (atomic_cmpxchg target old new).prev
  { target := (atomic_cmpxchg target old new).target
    v := new
    ret := prev != old }

/-- Result of the macro `ck_pr_cas_uint`: the target afterwards and the value
of the expression. -/
structure cas_uint_result where
  target : Nat
  ret : Bool
deriving DecidableEq, Repr

/-- The macro `ck_pr_cas_uint(t, old, new)`. -/
def ck_pr_cas_uint (target old new : Nat) : cas_uint_result :=
  { target := (atomic_cmpxchg target old new).target
    ret := (atomic_cmpxchg target old new).prev != old }

/-- Modelled from the spec: the kernel primitive `atomic_set`, the atomic
unsigned store of the atomic primitive contract; the value is what the
location holds afterwards. -/
def atomic_set (_v : Nat) (i : Nat) : Nat := i

/-- The macro `ck_pr_store_uint(A, B)`. -/
def ck_pr_store_uint (a b : Nat) : Nat := atomic_set a b

/-! ## The ring control block -/

/-- The control block `struct ck_ring`. -/
structure ck_ring where
  c_head : Nat
  p_tail : Nat
  p_head : Nat
  size : Nat
  mask : Nat
deriving DecidableEq, Repr

/-- Every field of the control block is a 32-bit value. -/
def ck_ring.wf (ring : ck_ring) : Prop :=
  ring.c_head < 2 ^ 32 ∧ ring.p_tail < 2 ^ 32 ∧ ring.p_head < 2 ^ 32 ∧
    ring.size < 2 ^ 32 ∧ ring.mask < 2 ^ 32

instance (ring : ck_ring) : Decidable ring.wf := by
  unfold ck_ring.wf; infer_instance

/-- The function `ck_ring_init(ring, size)`. -/
def ck_ring_init (ring : ck_ring) (size : Nat) : ck_ring :=
  let ring := { ring with size := size }
  let ring := { ring with mask := u32_sub size 1 }
  let ring := { ring with p_tail := atomic_set ring.p_tail 0 }
  let ring := { ring with p_head := atomic_set ring.p_head 0 }
  { ring with c_head := atomic_set ring.c_head 0 }

/-! ## Multi-producer enqueue -/

/-- How the reservation loop of `_ck_ring_enqueue_mp` was left: `r = true`
through `break`, `r = false` through `goto leave`; the locals and the ring at
that point, and two ghost counters: loop passes begun and compare-and-swap
operations issued. -/
structure mp_reserve where
  r : Bool
  ring : ck_ring
  producer : Nat
  consumer : Nat
  delta : Nat
  passes : Nat
  cas : Nat
deriving DecidableEq, Repr

/-- The `for (;;)` loop of `_ck_ring_enqueue_mp`. -/
def _ck_ring_enqueue_mp_loop : Nat → ck_ring → Nat → Nat → Nat → Option mp_reserve
  | 0, _, _, _, _ => none
  | fuel + 1, ring, producer, passes, cas =>
    let mask := ring.mask
    let consumer := ck_pr_load_uint ring.c_head
    let delta := u32_add producer 1
    if u32_sub producer consumer < mask then
      let c := ck_pr_cas_uint_value ring.p_head producer delta
      let ring1 := { ring with p_head := c.target }
      if c.ret = true then
        some { r := true, ring := ring1, producer := c.v, consumer := consumer,
               delta := delta, passes := passes + 1, cas := cas + 1 }
      else
        _ck_ring_enqueue_mp_loop fuel ring1 c.v (passes + 1) (cas + 1)
    else
      let new_producer := ck_pr_load_uint ring.p_head
      if producer = new_producer then
        some { r := false, ring := ring, producer := producer, consumer := consumer,
               delta := delta, passes := passes + 1, cas := cas }
      else
        _ck_ring_enqueue_mp_loop fuel ring new_producer (passes + 1) cas

/-- The publish spin `while (ck_pr_load_uint(&ring->p_tail) != producer)`. -/
def _ck_ring_enqueue_mp_spin : Nat → ck_ring → Nat → Option Unit
  | 0, _, _ => none
  | fuel + 1, ring, producer =>
    if ck_pr_load_uint ring.p_tail ≠ producer then
      _ck_ring_enqueue_mp_spin fuel ring producer
    else some ()

/-- What a call of `_ck_ring_enqueue_mp` leaves: the returned boolean, the
ring, the backing storage, the value stored through `size` (when that
pointer is not NULL), and the ghost counters of the reservation loop. -/
structure enqueue_result where
  r : Bool
  ring : ck_ring
  buffer : Mem
  size : Option Nat
  passes : Nat
  cas : Nat

/-- The function `_ck_ring_enqueue_mp(ring, buffer, entry, ts, size)`;
`size_nonnull` says whether the `size` pointer is not NULL. -/
def _ck_ring_enqueue_mp (fuel : Nat) (ring : ck_ring) (buffer : Mem) (entry : Mem)
    (ts : Nat) (size_nonnull : Bool) : Option enqueue_result :=
  let mask := ring.mask
  let producer := ck_pr_load_uint ring.p_head
  match _ck_ring_enqueue_mp_loop fuel ring producer 0 0 with
  | none => none
  | some e =>
    let size := if size_nonnull then some (u32_sub e.producer e.consumer &&& mask) else none
    if e.r = true then
      let buffer1 := memcpy buffer (u32_mul ts (e.producer &&& mask)) entry 0 ts
      match _ck_ring_enqueue_mp_spin fuel e.ring e.producer with
      | none => none
      | some _ =>
        some { r := true,
               ring := { e.ring with p_tail := ck_pr_store_uint e.ring.p_tail e.delta },
               buffer := buffer1,
               size := size, passes := e.passes, cas := e.cas }
    else
      some { r := false, ring := e.ring, buffer := buffer, size := size,
             passes := e.passes, cas := e.cas }

/-- What a call of `_ck_ring_enqueue_mp_size` leaves; `size` is the value
stored through the caller's pointer. -/
structure enqueue_size_result where
  r : Bool
  ring : ck_ring
  buffer : Mem
  size : Nat

/-- The function `_ck_ring_enqueue_mp_size(ring, buffer, entry, ts, size)`;
`sz` is what the uninitialised local of that name holds at entry. -/
def _ck_ring_enqueue_mp_size (fuel : Nat) (ring : ck_ring) (buffer : Mem) (entry : Mem)
    (ts : Nat) (sz : Nat) : Option enqueue_size_result :=
  match _ck_ring_enqueue_mp fuel ring buffer entry ts true with
  | none => none
  | some e => some { r := e.r, ring := e.ring, buffer := e.buffer, size := e.size.getD sz }

/-! ## Multi-consumer dequeue -/

/-- What a dequeue call leaves: the returned boolean, the ring, the backing
storage (only read through a pointer to const) and the caller's output. -/
structure dequeue_result where
  r : Bool
  ring : ck_ring
  buffer : Mem
  data : Mem

/-- The function `_ck_ring_trydequeue_mc(ring, buffer, data, size)`. -/
def _ck_ring_trydequeue_mc (ring : ck_ring) (buffer : Mem) (data : Mem) (size : Nat) :
    dequeue_result :=
  let mask := ring.mask
  let consumer := ck_pr_load_uint ring.c_head
  let producer := ck_pr_load_uint ring.p_tail
  if consumer = producer then
    { r := false, ring := ring, buffer := buffer, data := data }
  else
    let data1 := memcpy data 0 buffer (u32_mul size (consumer &&& mask)) size
    let c := ck_pr_cas_uint ring.c_head consumer (u32_add consumer 1)
    { r := c.ret, ring := { ring with c_head := c.target }, buffer := buffer, data := data1 }

/-- The `do ... while` loop of `_ck_ring_dequeue_mc`. -/
def _ck_ring_dequeue_mc_loop : Nat → ck_ring → Mem → Mem → Nat → Nat → Option dequeue_result
  | 0, _, _, _, _, _ => none
  | fuel + 1, ring, buffer, data, ts, consumer =>
    let mask := ring.mask
    let producer := ck_pr_load_uint ring.p_tail
    if consumer = producer then
      some { r := false, ring := ring, buffer := buffer, data := data }
    else
      let data1 := memcpy data 0 buffer (u32_mul ts (consumer &&& mask)) ts
      let c := ck_pr_cas_uint_value ring.c_head consumer (u32_add consumer 1)
      let ring1 := { ring with c_head := c.target }
      if c.ret = false then
        _ck_ring_dequeue_mc_loop fuel ring1 buffer data1 ts c.v
      else
        some { r := true, ring := ring1, buffer := buffer, data := data1 }

/-- The function `_ck_ring_dequeue_mc(ring, buffer, data, ts)`. -/
def _ck_ring_dequeue_mc (fuel : Nat) (ring : ck_ring) (buffer : Mem) (data : Mem)
    (ts : Nat) : Option dequeue_result :=
  let consumer := ck_pr_load_uint ring.c_head
  _ck_ring_dequeue_mc_loop fuel ring buffer data ts consumer

/-! ## The public pointer interface

`sizeof_ptr` is `sizeof(void *)` of the target; `entry` is the object
representation of the pointer that is enqueued. -/

/-- The function `ck_ring_enqueue_mpmc(ring, buffer, entry)`. -/
def ck_ring_enqueue_mpmc (sizeof_ptr fuel : Nat) (ring : ck_ring) (buffer : Mem)
    (entry : Mem) : Option enqueue_result :=
  _ck_ring_enqueue_mp fuel ring buffer entry sizeof_ptr false

/-- The function `ck_ring_enqueue_mpmc_size(ring, buffer, entry, size)`. -/
def ck_ring_enqueue_mpmc_size (sizeof_ptr fuel : Nat) (ring : ck_ring) (buffer : Mem)
    (entry : Mem) (sz : Nat) : Option enqueue_size_result :=
  _ck_ring_enqueue_mp_size fuel ring buffer entry sizeof_ptr sz

/-- The function `ck_ring_trydequeue_mpmc(ring, buffer, data)`. -/
def ck_ring_trydequeue_mpmc (sizeof_ptr : Nat) (ring : ck_ring) (buffer : Mem)
    (data : Mem) : dequeue_result :=
  _ck_ring_trydequeue_mc ring buffer data sizeof_ptr

/-- The function `ck_ring_dequeue_mpmc(ring, buffer, data)`. -/
def ck_ring_dequeue_mpmc (sizeof_ptr fuel : Nat) (ring : ck_ring) (buffer : Mem)
    (data : Mem) : Option dequeue_result :=
  _ck_ring_dequeue_mc fuel ring buffer data sizeof_ptr

/-! ## Sequences of calls by one thread -/

/-- The shared state: the control block and the backing storage. -/
structure ring_state where
  ring : ck_ring
  buffer : Mem

/-- A call on the public interface, with what the caller passes: the entry
of an enqueue, the prior content of the output of a dequeue. -/
inductive ring_call where
  | enqueue (entry : Mem)
  | enqueue_size (entry : Mem) (sz : Nat)
  | trydequeue (data : Mem)
  | dequeue (data : Mem)

/-- What a call gives back: the returned boolean, the shared state after
it and, for a dequeue, the caller's output. -/
structure call_result where
  r : Bool
  state : ring_state
  data : Option Mem

/-- One call on the public interface, run to completion by the only thread. -/
def run_call (sizeof_ptr fuel : Nat) (s : ring_state) : ring_call → Option call_result
  | .enqueue entry =>
    match ck_ring_enqueue_mpmc sizeof_ptr fuel s.ring s.buffer entry with
    | none => none
    | some e => some { r := e.r, state := { ring := e.ring, buffer := e.buffer }, data := none }
  | .enqueue_size entry sz =>
    match ck_ring_enqueue_mpmc_size sizeof_ptr fuel s.ring s.buffer entry sz with
    | none => none
    | some e => some { r := e.r, state := { ring := e.ring, buffer := e.buffer }, data := none }
  | .trydequeue data =>
    let d := ck_ring_trydequeue_mpmc sizeof_ptr s.ring s.buffer data
    some { r := d.r, state := { ring := d.ring, buffer := d.buffer }, data := some d.data }
  | .dequeue data =>
    match ck_ring_dequeue_mpmc sizeof_ptr fuel s.ring s.buffer data with
    | none => none
    | some d => some { r := d.r, state := { ring := d.ring, buffer := d.buffer },
                       data := some d.data }

/-- A sequence of calls, one after the other; the returned booleans in order
and the final state. -/
def run_calls (sizeof_ptr fuel : Nat) : ring_state → List ring_call →
    Option (List Bool × ring_state)
  | s, [] => some ([], s)
  | s, c :: cs =>
    match run_call sizeof_ptr fuel s c with
    | none => none
    | some res =>
      match run_calls sizeof_ptr fuel res.state cs with
      | none => none
      | some out => some (res.r :: out.1, out.2)

/-- The states a single thread can bring about from `ck_ring_init(ring, C)`
by finitely many calls that return. -/
inductive reachable (sizeof_ptr C : Nat) : ring_state → Prop where
  | init (ring0 : ck_ring) (buffer : Mem) :
      reachable sizeof_ptr C { ring := ck_ring_init ring0 C, buffer := buffer }
  | call (s : ring_state) (fuel : Nat) (c : ring_call) (res : call_result) :
      reachable sizeof_ptr C s → run_call sizeof_ptr fuel s c = some res →
      reachable sizeof_ptr C res.state

/-- Where `p_head` stands when the reservation loop is left by a thread
running alone: at `c_head + mask` if there was room, else where it was. -/
def reserved_head (ring : ck_ring) : Nat :=
  if u32_sub ring.p_head ring.c_head < ring.mask then u32_add ring.c_head ring.mask
  else ring.p_head

/-- Byte offset of the slot of counter value `k`, as the code computes it. -/
def slot_offset (ring : ck_ring) (ts k : Nat) : Nat := u32_mul ts (k &&& ring.mask)

/-- The slot of counter value `k`: the expression `counter & mask` of the
three engine functions. -/
def slot_index (ring : ck_ring) (k : Nat) : Nat := k &&& ring.mask

/-- The ordering of the three counters: published elements are at most the
reserved ones, and those at most the usable depth `C - 1`. -/
def ring_inv (C : Nat) (ring : ck_ring) : Prop :=
  ring.wf ∧ ring.mask = C - 1 ∧
    u32_sub ring.p_tail ring.c_head ≤ u32_sub ring.p_head ring.c_head ∧
    u32_sub ring.p_head ring.c_head ≤ C - 1

/-! ## Arithmetic of the counters -/

theorem u32_add_lt (a b : Nat) : u32_add a b < 2 ^ 32 := by
  unfold u32_add; omega

theorem u32_sub_lt (a b : Nat) : u32_sub a b < 2 ^ 32 := by
  unfold u32_sub; omega

theorem u32_sub_self (a : Nat) : u32_sub a a = 0 := by
  unfold u32_sub; omega

theorem u32_sub_succ (p c m : Nat) (hm : m < 2 ^ 32) (h : u32_sub p c < m) :
    u32_sub (u32_add p 1) c = u32_sub p c + 1 := by
  unfold u32_sub u32_add at *
  omega

theorem u32_sub_eq_mask (p c m : Nat) (hp : p < 2 ^ 32) (h : u32_sub p c = m) :
    p = u32_add c m := by
  unfold u32_sub u32_add at *
  omega

theorem u32_sub_add_mask (c m : Nat) (hm : m < 2 ^ 32) : u32_sub (u32_add c m) c = m := by
  unfold u32_sub u32_add
  omega

theorem u32_sub_pred (t c : Nat) (ht : t < 2 ^ 32) (hc : c < 2 ^ 32) (h : c ≠ t) :
    u32_sub t (u32_add c 1) + 1 = u32_sub t c := by
  unfold u32_sub u32_add
  omega

theorem u32_succ_eq (t c : Nat) (hc : c < 2 ^ 32) (h : u32_add c 1 = t) :
    u32_sub t 1 = c := by
  unfold u32_sub u32_add at *
  omega

theorem memcpy_memcpy (data buffer : Mem) (s1 s2 n : Nat) :
    memcpy (memcpy data 0 buffer s1 n) 0 buffer s2 n = memcpy data 0 buffer s2 n := by
  funext a
  simp only [memcpy]
  split <;> rfl

/-! ## The loops, run by a thread alone -/

theorem enqueue_mp_loop_sync (fuel : Nat) : ∀ (ring : ck_ring) (passes cas : Nat), ring.wf →
    _ck_ring_enqueue_mp_loop fuel ring ring.p_head passes cas =
      if ring.mask - u32_sub ring.p_head ring.c_head < fuel then
        some { r := false, ring := { ring with p_head := reserved_head ring },
               producer := reserved_head ring, consumer := ring.c_head,
               delta := u32_add (reserved_head ring) 1,
               passes := passes + (ring.mask - u32_sub ring.p_head ring.c_head) + 1,
               cas := cas + (ring.mask - u32_sub ring.p_head ring.c_head) }
      else none := by
  induction fuel with
  | zero => intro ring passes cas _; simp [_ck_ring_enqueue_mp_loop]
  | succ n ih =>
    intro ring passes cas hwf
    obtain ⟨c_head, p_tail, p_head, size, mask⟩ := ring
    obtain ⟨h1, h2, h3, h4, h5⟩ := hwf
    simp only at h1 h2 h3 h4 h5
    by_cases hlt : u32_sub p_head c_head < mask
    · have hs := u32_sub_succ p_head c_head mask h5 hlt
      have hwf1 : ck_ring.wf ⟨c_head, p_tail, u32_add p_head 1, size, mask⟩ :=
        ⟨h1, h2, u32_add_lt _ _, h4, h5⟩
      have hi := ih ⟨c_head, p_tail, u32_add p_head 1, size, mask⟩ (passes + 1) (cas + 1) hwf1
      simp only [hs] at hi
      simp only [_ck_ring_enqueue_mp_loop, ck_pr_load_uint, atomic_read, hlt, if_true,
        ck_pr_cas_uint_value, atomic_cmpxchg, bne_self_eq_false, Bool.false_eq_true, if_false, hi]
      have hr : reserved_head ⟨c_head, p_tail, u32_add p_head 1, size, mask⟩
          = reserved_head ⟨c_head, p_tail, p_head, size, mask⟩ := by
        simp only [reserved_head, hs, hlt, if_true]
        split
        · rfl
        · have : u32_sub (u32_add p_head 1) c_head = mask := by omega
          exact u32_sub_eq_mask _ _ _ (u32_add_lt _ _) this
      rw [hr]
      by_cases hf : mask - u32_sub p_head c_head < n + 1
      · have hf1 : mask - (u32_sub p_head c_head + 1) < n := by omega
        simp only [hf, hf1, if_true]
        congr 2 <;> omega
      · have hf1 : ¬ mask - (u32_sub p_head c_head + 1) < n := by omega
        simp only [hf, hf1, if_false]
    · have hz : mask - u32_sub p_head c_head = 0 := by omega
      simp [_ck_ring_enqueue_mp_loop, ck_pr_load_uint, atomic_read, hlt, hz, reserved_head]

theorem dequeue_mc_loop_sync (fuel : Nat) : ∀ (ring : ck_ring) (buffer data : Mem) (ts : Nat),
    ring.wf →
    _ck_ring_dequeue_mc_loop fuel ring buffer data ts ring.c_head =
      if u32_sub ring.p_tail ring.c_head < fuel then
        some { r := false, ring := { ring with c_head := ring.p_tail }, buffer := buffer,
               data := if ring.c_head = ring.p_tail then data
                       else memcpy data 0 buffer (slot_offset ring ts (u32_sub ring.p_tail 1)) ts }
      else none := by
  induction fuel with
  | zero => intro ring buffer data ts _; simp [_ck_ring_dequeue_mc_loop]
  | succ n ih =>
    intro ring buffer data ts hwf
    obtain ⟨c_head, p_tail, p_head, size, mask⟩ := ring
    obtain ⟨h1, h2, h3, h4, h5⟩ := hwf
    simp only at h1 h2 h3 h4 h5
    by_cases he : c_head = p_tail
    · subst he
      simp [_ck_ring_dequeue_mc_loop, ck_pr_load_uint, atomic_read, u32_sub_self]
    · have hp := u32_sub_pred p_tail c_head h2 h1 he
      have hwf1 : ck_ring.wf ⟨u32_add c_head 1, p_tail, p_head, size, mask⟩ :=
        ⟨u32_add_lt _ _, h2, h3, h4, h5⟩
      have hi := ih ⟨u32_add c_head 1, p_tail, p_head, size, mask⟩ buffer
        (memcpy data 0 buffer (u32_mul ts (c_head &&& mask)) ts) ts hwf1
      simp only [_ck_ring_dequeue_mc_loop, ck_pr_load_uint, atomic_read, he, if_false,
        ck_pr_cas_uint_value, atomic_cmpxchg, bne_self_eq_false, if_true, hi]
      by_cases hf : u32_sub p_tail c_head < n + 1
      · have hf1 : u32_sub p_tail (u32_add c_head 1) < n := by omega
        simp only [hf, hf1, if_true]
        congr 2
        by_cases hn : u32_add c_head 1 = p_tail
        · have := u32_succ_eq p_tail c_head h1 hn
          simp only [hn, if_true, slot_offset, this]
        · simp only [hn, if_false, slot_offset, memcpy_memcpy]
      · have hf1 : ¬ u32_sub p_tail (u32_add c_head 1) < n := by omega
        simp only [hf, hf1, if_false]

/-! ## Whole calls, run by a thread alone -/

theorem enqueue_mp_alone (fuel : Nat) (ring : ck_ring) (buffer entry : Mem) (ts : Nat)
    (size_nonnull : Bool) (hwf : ring.wf) :
    _ck_ring_enqueue_mp fuel ring buffer entry ts size_nonnull =
      if ring.mask - u32_sub ring.p_head ring.c_head < fuel then
        some { r := false, ring := { ring with p_head := reserved_head ring }, buffer := buffer,
               size := if size_nonnull then
                         some (u32_sub (reserved_head ring) ring.c_head &&& ring.mask)
                       else none,
               passes := ring.mask - u32_sub ring.p_head ring.c_head + 1,
               cas := ring.mask - u32_sub ring.p_head ring.c_head }
      else none := by
  have h := enqueue_mp_loop_sync fuel ring 0 0 hwf
  by_cases hf : ring.mask - u32_sub ring.p_head ring.c_head < fuel
  · simp [_ck_ring_enqueue_mp, ck_pr_load_uint, atomic_read, h, hf]
  · simp [_ck_ring_enqueue_mp, ck_pr_load_uint, atomic_read, h, hf]

theorem dequeue_mc_alone (fuel : Nat) (ring : ck_ring) (buffer data : Mem) (ts : Nat)
    (hwf : ring.wf) :
    _ck_ring_dequeue_mc fuel ring buffer data ts =
      if u32_sub ring.p_tail ring.c_head < fuel then
        some { r := false, ring := { ring with c_head := ring.p_tail }, buffer := buffer,
               data := if ring.c_head = ring.p_tail then data
                       else memcpy data 0 buffer (slot_offset ring ts (u32_sub ring.p_tail 1)) ts }
      else none := by
  simp only [_ck_ring_dequeue_mc, ck_pr_load_uint, atomic_read]
  exact dequeue_mc_loop_sync fuel ring buffer data ts hwf

theorem trydequeue_mc_alone (ring : ck_ring) (buffer data : Mem) (size : Nat)
    (hne : ring.c_head ≠ ring.p_tail) :
    _ck_ring_trydequeue_mc ring buffer data size =
      { r := false, ring := { ring with c_head := u32_add ring.c_head 1 }, buffer := buffer,
        data := memcpy data 0 buffer (slot_offset ring size ring.c_head) size } := by
  simp [_ck_ring_trydequeue_mc, ck_pr_load_uint, atomic_read, hne, ck_pr_cas_uint,
    atomic_cmpxchg, slot_offset]

theorem trydequeue_mc_empty (ring : ck_ring) (buffer data : Mem) (size : Nat)
    (he : ring.c_head = ring.p_tail) :
    _ck_ring_trydequeue_mc ring buffer data size =
      { r := false, ring := ring, buffer := buffer, data := data } := by
  simp [_ck_ring_trydequeue_mc, ck_pr_load_uint, atomic_read, he]

theorem dequeue_mc_empty (fuel : Nat) (ring : ck_ring) (buffer data : Mem) (ts : Nat)
    (he : ring.c_head = ring.p_tail) (hfuel : 0 < fuel) :
    _ck_ring_dequeue_mc fuel ring buffer data ts =
      some { r := false, ring := ring, buffer := buffer, data := data } := by
  obtain ⟨n, rfl⟩ : ∃ n, fuel = n + 1 := ⟨fuel - 1, by omega⟩
  simp [_ck_ring_dequeue_mc, _ck_ring_dequeue_mc_loop, ck_pr_load_uint, atomic_read, he]

/-! ## The counter ordering along a run -/

theorem ring_inv_init (C : Nat) (ring0 : ck_ring) (h0 : 0 < C) (hC : C < 2 ^ 32) :
    ring_inv C (ck_ring_init ring0 C) := by
  simp only [ring_inv, ck_ring.wf, ck_ring_init, atomic_set, u32_sub]
  omega

theorem ring_inv_reserved (C : Nat) (ring : ck_ring) (h : ring_inv C ring) :
    ring_inv C { ring with p_head := reserved_head ring } := by
  obtain ⟨⟨h1, h2, h3, h4, h5⟩, hm, ht, hp⟩ := h
  refine ⟨⟨h1, h2, ?_, h4, h5⟩, hm, ?_, ?_⟩
  · show reserved_head ring < 2 ^ 32
    unfold reserved_head
    split
    · exact u32_add_lt _ _
    · exact h3
  · show u32_sub ring.p_tail ring.c_head ≤ u32_sub (reserved_head ring) ring.c_head
    unfold reserved_head
    split
    · rw [u32_sub_add_mask _ _ h5]; omega
    · exact ht
  · show u32_sub (reserved_head ring) ring.c_head ≤ C - 1
    unfold reserved_head
    split
    · rw [u32_sub_add_mask _ _ h5]; omega
    · exact hp

theorem ring_inv_claim (C : Nat) (ring : ck_ring) (h : ring_inv C ring)
    (hne : ring.c_head ≠ ring.p_tail) :
    ring_inv C { ring with c_head := u32_add ring.c_head 1 } := by
  obtain ⟨⟨h1, h2, h3, h4, h5⟩, hm, ht, hp⟩ := h
  refine ⟨⟨u32_add_lt _ _, h2, h3, h4, h5⟩, hm, ?_, ?_⟩
  · show u32_sub ring.p_tail (u32_add ring.c_head 1) ≤ u32_sub ring.p_head (u32_add ring.c_head 1)
    unfold u32_sub u32_add at *
    omega
  · show u32_sub ring.p_head (u32_add ring.c_head 1) ≤ C - 1
    unfold u32_sub u32_add at *
    omega

theorem ring_inv_drain (C : Nat) (ring : ck_ring) (h : ring_inv C ring) :
    ring_inv C { ring with c_head := ring.p_tail } := by
  obtain ⟨⟨h1, h2, h3, h4, h5⟩, hm, ht, hp⟩ := h
  refine ⟨⟨h2, h2, h3, h4, h5⟩, hm, ?_, ?_⟩
  · show u32_sub ring.p_tail ring.p_tail ≤ u32_sub ring.p_head ring.p_tail
    rw [u32_sub_self]; omega
  · show u32_sub ring.p_head ring.p_tail ≤ C - 1
    unfold u32_sub at *
    omega

theorem ring_inv_call (sizeof_ptr fuel C : Nat) (s : ring_state) (c : ring_call)
    (res : call_result) (h : ring_inv C s.ring)
    (hrun : run_call sizeof_ptr fuel s c = some res) : ring_inv C res.state.ring := by
  cases c with
  | enqueue entry =>
    by_cases hf : s.ring.mask - u32_sub s.ring.p_head s.ring.c_head < fuel
    · simp only [run_call, ck_ring_enqueue_mpmc, enqueue_mp_alone _ _ _ _ _ _ h.1, hf, if_true,
        Option.some.injEq] at hrun
      subst hrun
      exact ring_inv_reserved C s.ring h
    · simp [run_call, ck_ring_enqueue_mpmc, enqueue_mp_alone _ _ _ _ _ _ h.1, hf] at hrun
  | enqueue_size entry sz =>
    by_cases hf : s.ring.mask - u32_sub s.ring.p_head s.ring.c_head < fuel
    · simp only [run_call, ck_ring_enqueue_mpmc_size, _ck_ring_enqueue_mp_size,
        enqueue_mp_alone _ _ _ _ _ _ h.1, hf, if_true, Option.some.injEq] at hrun
      subst hrun
      exact ring_inv_reserved C s.ring h
    · simp [run_call, ck_ring_enqueue_mpmc_size, _ck_ring_enqueue_mp_size,
        enqueue_mp_alone _ _ _ _ _ _ h.1, hf] at hrun
  | trydequeue data =>
    simp only [run_call, ck_ring_trydequeue_mpmc, Option.some.injEq] at hrun
    subst hrun
    by_cases he : s.ring.c_head = s.ring.p_tail
    · rw [trydequeue_mc_empty _ _ _ _ he]
      exact h
    · rw [trydequeue_mc_alone _ _ _ _ he]
      exact ring_inv_claim C s.ring h he
  | dequeue data =>
    by_cases hf : u32_sub s.ring.p_tail s.ring.c_head < fuel
    · simp only [run_call, ck_ring_dequeue_mpmc, dequeue_mc_alone _ _ _ _ _ h.1, hf, if_true,
        Option.some.injEq] at hrun
      subst hrun
      exact ring_inv_drain C s.ring h
    · simp [run_call, ck_ring_dequeue_mpmc, dequeue_mc_alone _ _ _ _ _ h.1, hf] at hrun

theorem ring_inv_reachable (sizeof_ptr C : Nat) (h0 : 0 < C) (hC : C < 2 ^ 32)
    (s : ring_state) (h : reachable sizeof_ptr C s) : ring_inv C s.ring := by
  induction h with
  | init ring0 buffer => exact ring_inv_init C ring0 h0 hC
  | call s fuel c res _ hrun ih => exact ring_inv_call sizeof_ptr fuel C s c res ih hrun

theorem pow_two_capacity (k : Nat) (hk : k < 32) : 0 < 2 ^ k ∧ 2 ^ k < 2 ^ 32 :=
  ⟨Nat.pos_pow_of_pos k (by decide), Nat.pow_lt_pow_right (by decide) hk⟩

theorem occupancy_call (sizeof_ptr fuel B : Nat) (s : ring_state) (c : ring_call)
    (res : call_result) (hwf : s.ring.wf)
    (h : u32_sub s.ring.p_tail s.ring.c_head ≤ B)
    (hrun : run_call sizeof_ptr fuel s c = some res) :
    res.state.ring.wf ∧ u32_sub res.state.ring.p_tail res.state.ring.c_head ≤ B := by
  obtain ⟨h1, h2, h3, h4, h5⟩ := hwf
  have hres : reserved_head s.ring < 2 ^ 32 := by
    unfold reserved_head
    split
    · exact u32_add_lt _ _
    · exact h3
  cases c with
  | enqueue entry =>
    by_cases hf : s.ring.mask - u32_sub s.ring.p_head s.ring.c_head < fuel
    · simp only [run_call, ck_ring_enqueue_mpmc,
        enqueue_mp_alone _ _ _ _ _ _ ⟨h1, h2, h3, h4, h5⟩, hf, if_true,
        Option.some.injEq] at hrun
      subst hrun
      exact ⟨⟨h1, h2, hres, h4, h5⟩, h⟩
    · simp [run_call, ck_ring_enqueue_mpmc,
        enqueue_mp_alone _ _ _ _ _ _ ⟨h1, h2, h3, h4, h5⟩, hf] at hrun
  | enqueue_size entry sz =>
    by_cases hf : s.ring.mask - u32_sub s.ring.p_head s.ring.c_head < fuel
    · simp only [run_call, ck_ring_enqueue_mpmc_size, _ck_ring_enqueue_mp_size,
        enqueue_mp_alone _ _ _ _ _ _ ⟨h1, h2, h3, h4, h5⟩, hf, if_true,
        Option.some.injEq] at hrun
      subst hrun
      exact ⟨⟨h1, h2, hres, h4, h5⟩, h⟩
    · simp [run_call, ck_ring_enqueue_mpmc_size, _ck_ring_enqueue_mp_size,
        enqueue_mp_alone _ _ _ _ _ _ ⟨h1, h2, h3, h4, h5⟩, hf] at hrun
  | trydequeue data =>
    simp only [run_call, ck_ring_trydequeue_mpmc, Option.some.injEq] at hrun
    subst hrun
    by_cases he : s.ring.c_head = s.ring.p_tail
    · rw [trydequeue_mc_empty _ _ _ _ he]
      exact ⟨⟨h1, h2, h3, h4, h5⟩, h⟩
    · rw [trydequeue_mc_alone _ _ _ _ he]
      refine ⟨⟨u32_add_lt _ _, h2, h3, h4, h5⟩, ?_⟩
      show u32_sub s.ring.p_tail (u32_add s.ring.c_head 1) ≤ B
      have := u32_sub_pred s.ring.p_tail s.ring.c_head h2 h1 he
      omega
  | dequeue data =>
    by_cases hf : u32_sub s.ring.p_tail s.ring.c_head < fuel
    · simp only [run_call, ck_ring_dequeue_mpmc,
        dequeue_mc_alone _ _ _ _ _ ⟨h1, h2, h3, h4, h5⟩, hf, if_true,
        Option.some.injEq] at hrun
      subst hrun
      refine ⟨⟨h2, h2, h3, h4, h5⟩, ?_⟩
      show u32_sub s.ring.p_tail s.ring.p_tail ≤ B
      rw [u32_sub_self]; omega
    · simp [run_call, ck_ring_dequeue_mpmc,
        dequeue_mc_alone _ _ _ _ _ ⟨h1, h2, h3, h4, h5⟩, hf] at hrun

/-! ## What each call leaves alone -/

theorem enqueue_mp_loop_frame (fuel : Nat) : ∀ (ring : ck_ring) (producer passes cas : Nat)
    (e : mp_reserve), _ck_ring_enqueue_mp_loop fuel ring producer passes cas = some e →
    e.ring.c_head = ring.c_head ∧ e.ring.p_tail = ring.p_tail ∧ e.ring.size = ring.size ∧
      e.ring.mask = ring.mask := by
  induction fuel with
  | zero => intro ring producer passes cas e h; simp [_ck_ring_enqueue_mp_loop] at h
  | succ n ih =>
    intro ring producer passes cas e h
    simp only [_ck_ring_enqueue_mp_loop] at h
    split at h
    · split at h
      · simp only [Option.some.injEq] at h
        subst h
        exact ⟨rfl, rfl, rfl, rfl⟩
      · have hi := ih _ _ _ _ e h
        exact hi
    · split at h
      · simp only [Option.some.injEq] at h
        subst h
        exact ⟨rfl, rfl, rfl, rfl⟩
      · have hi := ih _ _ _ _ e h
        exact hi

theorem enqueue_mp_frame (fuel : Nat) (ring : ck_ring) (buffer entry : Mem) (ts : Nat)
    (size_nonnull : Bool) (e : enqueue_result)
    (h : _ck_ring_enqueue_mp fuel ring buffer entry ts size_nonnull = some e) :
    e.ring.c_head = ring.c_head ∧ e.ring.size = ring.size ∧ e.ring.mask = ring.mask ∧
      ∃ p : Nat, ∀ a : Nat,
        ¬ (slot_offset ring ts p ≤ a ∧ a < slot_offset ring ts p + ts) → e.buffer a = buffer a := by
  simp only [_ck_ring_enqueue_mp] at h
  cases hl : _ck_ring_enqueue_mp_loop fuel ring (ck_pr_load_uint ring.p_head) 0 0 with
  | none => simp [hl] at h
  | some x =>
    obtain ⟨h1, _, h3, h4⟩ := enqueue_mp_loop_frame fuel ring _ 0 0 x hl
    simp only [hl] at h
    by_cases hr : x.r = true
    · simp only [hr, if_true] at h
      cases hs : _ck_ring_enqueue_mp_spin fuel x.ring x.producer with
      | none => simp [hs] at h
      | some u =>
        simp only [hs, Option.some.injEq] at h
        subst h
        refine ⟨h1, h3, h4, x.producer, ?_⟩
        intro a ha
        simp only [memcpy, slot_offset] at ha ⊢
        rw [if_neg ha]
    · simp only [hr, Bool.false_eq_true, if_false, Option.some.injEq] at h
      subst h
      exact ⟨h1, h3, h4, 0, fun _ _ => rfl⟩

theorem enqueue_mp_loop_sync_fails (fuel : Nat) : ∀ (ring : ck_ring) (passes cas : Nat)
    (e : mp_reserve), _ck_ring_enqueue_mp_loop fuel ring ring.p_head passes cas = some e →
    e.r = false := by
  induction fuel with
  | zero => intro ring passes cas e h; simp [_ck_ring_enqueue_mp_loop] at h
  | succ n ih =>
    intro ring passes cas e h
    simp only [_ck_ring_enqueue_mp_loop, ck_pr_cas_uint_value, atomic_cmpxchg, if_true,
      bne_self_eq_false, Bool.false_eq_true, if_false, ck_pr_load_uint, atomic_read] at h
    split at h
    · exact ih { ring with p_head := u32_add ring.p_head 1 } _ _ e h
    · simp only [Option.some.injEq] at h
      subst h
      rfl

theorem enqueue_mp_writes_nothing (fuel : Nat) (ring : ck_ring) (buffer entry : Mem) (ts : Nat)
    (size_nonnull : Bool) (e : enqueue_result)
    (h : _ck_ring_enqueue_mp fuel ring buffer entry ts size_nonnull = some e) :
    e.r = false ∧ e.buffer = buffer := by
  simp only [_ck_ring_enqueue_mp, ck_pr_load_uint, atomic_read] at h
  cases hl : _ck_ring_enqueue_mp_loop fuel ring ring.p_head 0 0 with
  | none => simp [hl] at h
  | some x =>
    have hr := enqueue_mp_loop_sync_fails fuel ring 0 0 x hl
    simp only [hl, hr, Bool.false_eq_true, if_false, Option.some.injEq] at h
    subst h
    exact ⟨rfl, rfl⟩

theorem dequeue_mc_loop_frame (fuel : Nat) : ∀ (ring : ck_ring) (buffer data : Mem)
    (ts consumer : Nat) (d : dequeue_result),
    _ck_ring_dequeue_mc_loop fuel ring buffer data ts consumer = some d →
    d.ring.p_head = ring.p_head ∧ d.ring.p_tail = ring.p_tail ∧ d.ring.size = ring.size ∧
      d.ring.mask = ring.mask ∧ d.buffer = buffer := by
  induction fuel with
  | zero => intro ring buffer data ts consumer d h; simp [_ck_ring_dequeue_mc_loop] at h
  | succ n ih =>
    intro ring buffer data ts consumer d h
    simp only [_ck_ring_dequeue_mc_loop] at h
    split at h
    · simp only [Option.some.injEq] at h
      subst h
      exact ⟨rfl, rfl, rfl, rfl, rfl⟩
    · split at h
      · have hi := ih _ _ _ _ _ d h
        exact hi
      · simp only [Option.some.injEq] at h
        subst h
        exact ⟨rfl, rfl, rfl, rfl, rfl⟩

theorem trydequeue_mc_frame (ring : ck_ring) (buffer data : Mem) (size : Nat) :
    (_ck_ring_trydequeue_mc ring buffer data size).ring.p_head = ring.p_head ∧
    (_ck_ring_trydequeue_mc ring buffer data size).ring.p_tail = ring.p_tail ∧
    (_ck_ring_trydequeue_mc ring buffer data size).ring.size = ring.size ∧
    (_ck_ring_trydequeue_mc ring buffer data size).ring.mask = ring.mask ∧
    (_ck_ring_trydequeue_mc ring buffer data size).buffer = buffer := by
  simp only [_ck_ring_trydequeue_mc]
  split <;> exact ⟨rfl, rfl, rfl, rfl, rfl⟩

/-! ## Runs from the initial state -/

theorem reserved_head_lt (ring : ck_ring) (h : ring.wf) : reserved_head ring < 2 ^ 32 := by
  unfold reserved_head
  split
  · exact u32_add_lt _ _
  · exact h.2.2.1

theorem run_call_alone (sizeof_ptr fuel : Nat) (s : ring_state) (c : ring_call)
    (res : call_result) (hwf : s.ring.wf) (hrun : run_call sizeof_ptr fuel s c = some res) :
    res.r = false ∧ res.state.ring.wf ∧ res.state.ring.p_tail = s.ring.p_tail ∧
      (s.ring.c_head = s.ring.p_tail → res.state.ring.c_head = s.ring.c_head) := by
  have hres := reserved_head_lt s.ring hwf
  obtain ⟨h1, h2, h3, h4, h5⟩ := hwf
  cases c with
  | enqueue entry =>
    by_cases hf : s.ring.mask - u32_sub s.ring.p_head s.ring.c_head < fuel
    · simp only [run_call, ck_ring_enqueue_mpmc,
        enqueue_mp_alone _ _ _ _ _ _ ⟨h1, h2, h3, h4, h5⟩, hf, if_true,
        Option.some.injEq] at hrun
      subst hrun
      exact ⟨rfl, ⟨h1, h2, hres, h4, h5⟩, rfl, fun _ => rfl⟩
    · simp [run_call, ck_ring_enqueue_mpmc,
        enqueue_mp_alone _ _ _ _ _ _ ⟨h1, h2, h3, h4, h5⟩, hf] at hrun
  | enqueue_size entry sz =>
    by_cases hf : s.ring.mask - u32_sub s.ring.p_head s.ring.c_head < fuel
    · simp only [run_call, ck_ring_enqueue_mpmc_size, _ck_ring_enqueue_mp_size,
        enqueue_mp_alone _ _ _ _ _ _ ⟨h1, h2, h3, h4, h5⟩, hf, if_true,
        Option.some.injEq] at hrun
      subst hrun
      exact ⟨rfl, ⟨h1, h2, hres, h4, h5⟩, rfl, fun _ => rfl⟩
    · simp [run_call, ck_ring_enqueue_mpmc_size, _ck_ring_enqueue_mp_size,
        enqueue_mp_alone _ _ _ _ _ _ ⟨h1, h2, h3, h4, h5⟩, hf] at hrun
  | trydequeue data =>
    simp only [run_call, ck_ring_trydequeue_mpmc, Option.some.injEq] at hrun
    subst hrun
    by_cases he : s.ring.c_head = s.ring.p_tail
    · rw [trydequeue_mc_empty _ _ _ _ he]
      exact ⟨rfl, ⟨h1, h2, h3, h4, h5⟩, rfl, fun _ => rfl⟩
    · rw [trydequeue_mc_alone _ _ _ _ he]
      exact ⟨rfl, ⟨u32_add_lt _ _, h2, h3, h4, h5⟩, rfl, fun h => absurd h he⟩
  | dequeue data =>
    by_cases hf : u32_sub s.ring.p_tail s.ring.c_head < fuel
    · simp only [run_call, ck_ring_dequeue_mpmc,
        dequeue_mc_alone _ _ _ _ _ ⟨h1, h2, h3, h4, h5⟩, hf, if_true,
        Option.some.injEq] at hrun
      subst hrun
      exact ⟨rfl, ⟨h2, h2, h3, h4, h5⟩, rfl, fun h => h.symm⟩
    · simp [run_call, ck_ring_dequeue_mpmc,
        dequeue_mc_alone _ _ _ _ _ ⟨h1, h2, h3, h4, h5⟩, hf] at hrun

theorem unpublished_reachable (sizeof_ptr C : Nat) (hC : C < 2 ^ 32) (s : ring_state)
    (h : reachable sizeof_ptr C s) :
    s.ring.wf ∧ s.ring.p_tail = 0 ∧ s.ring.c_head = 0 := by
  induction h with
  | init ring0 buffer =>
    refine ⟨?_, rfl, rfl⟩
    simp only [ck_ring.wf, ck_ring_init, atomic_set, u32_sub]
    omega
  | call s fuel c res _ hrun ih =>
    obtain ⟨hwf, ht, hc⟩ := ih
    obtain ⟨_, hwf1, ht1, hc1⟩ := run_call_alone sizeof_ptr fuel s c res hwf hrun
    exact ⟨hwf1, ht1.trans ht, (hc1 (hc.trans ht.symm)).trans hc⟩

/-! ## The claims -/

/-- C1 (the code at the failing input): on a ring initialised with capacity 2
the first `ck_ring_enqueue_mpmc` returns false, leaving `p_head = 1` and
`p_tail = 0`; the same happens with capacity 4, where `p_head` ends at 3. -/
theorem capacity_first_enqueue_returns_false :
    (ck_ring_enqueue_mpmc 8 8 (ck_ring_init ⟨0, 0, 0, 0, 0⟩ 2) (fun _ => 0) (fun _ => 1)).map
        (fun e => (e.r, e.ring)) = some (false, ⟨0, 0, 1, 2, 1⟩) ∧
    (ck_ring_enqueue_mpmc 8 8 (ck_ring_init ⟨0, 0, 0, 0, 0⟩ 4) (fun _ => 0) (fun _ => 1)).map
        (fun e => (e.r, e.ring)) = some (false, ⟨0, 0, 3, 4, 3⟩) := by
  decide

/-- C2 (the code at the failing input): the scenario with capacity 4, enqueue
a, b, c, d, dequeue, enqueue d, dequeue four times; every one of the ten
calls returns false and the ring ends with `p_tail = c_head = 0`. -/
theorem fifo_scenario_all_false :
    (run_calls 8 8 ⟨ck_ring_init ⟨0, 0, 0, 0, 0⟩ 4, fun _ => 0⟩
        [.enqueue (fun _ => 1), .enqueue (fun _ => 2), .enqueue (fun _ => 3),
         .enqueue (fun _ => 4), .dequeue (fun _ => 0), .enqueue (fun _ => 4),
         .dequeue (fun _ => 0), .dequeue (fun _ => 0), .dequeue (fun _ => 0),
         .dequeue (fun _ => 0)]).map (fun out => (out.1, out.2.ring)) =
      some ([false, false, false, false, false, false, false, false, false, false],
            ⟨0, 0, 3, 4, 3⟩) := by
  decide

/-- C3 (the code at the failing input): on a ring initialised with capacity 4,
where `p_head = 0`, `_ck_ring_enqueue_mp` returns false and leaves
`p_head = 3`. -/
theorem failed_enqueue_moves_p_head :
    (ck_ring_init ⟨0, 0, 0, 0, 0⟩ 4).p_head = 0 ∧
    (_ck_ring_enqueue_mp 8 (ck_ring_init ⟨0, 0, 0, 0, 0⟩ 4) (fun _ => 0) (fun _ => 1) 8 false).map
        (fun e => (e.r, e.ring.p_head)) = some (false, 3) := by
  decide

/-- C4: when `(p_head - c_head) mod 2^32 >= mask`, whatever the capacity, a
call of `_ck_ring_enqueue_mp` by a thread alone returns false after one pass
of the loop (one unit of fuel is enough), issues no compare-and-swap and
leaves the ring and the backing storage as they were. -/
theorem enqueue_mp_full_fails (fuel : Nat) (ring : ck_ring) (buffer entry : Mem) (ts : Nat)
    (size_nonnull : Bool) (hfull : ring.mask ≤ u32_sub ring.p_head ring.c_head)
    (hfuel : 0 < fuel) :
    _ck_ring_enqueue_mp fuel ring buffer entry ts size_nonnull =
      some { r := false, ring := ring, buffer := buffer,
             size := if size_nonnull then
                       some (u32_sub ring.p_head ring.c_head &&& ring.mask)
                     else none,
             passes := 1, cas := 0 } := by
  obtain ⟨n, rfl⟩ : ∃ n, fuel = n + 1 := ⟨fuel - 1, by omega⟩
  have hnot : ¬ u32_sub ring.p_head ring.c_head < ring.mask := by omega
  simp [_ck_ring_enqueue_mp, _ck_ring_enqueue_mp_loop, ck_pr_load_uint, atomic_read, hnot]

/-- C4 at a quiescent full ring of capacity 4: `p_head = p_tail = 3`,
`c_head = 0`. -/
theorem enqueue_mp_full_fails_witness :
    _ck_ring_enqueue_mp 1 ⟨0, 3, 3, 4, 3⟩ (fun _ => 0) (fun _ => 1) 8 false =
      some { r := false, ring := ⟨0, 3, 3, 4, 3⟩, buffer := fun _ => 0,
             size := none, passes := 1, cas := 0 } :=
  enqueue_mp_full_fails 1 ⟨0, 3, 3, 4, 3⟩ (fun _ => 0) (fun _ => 1) 8 false (by decide)
    (by decide)

/-- C5 (the code at the failing input): on the ring with `c_head = 0` and
`p_tail = 2`, `_ck_ring_dequeue_mc` returns false, leaves `c_head = 2` and
the output holds byte 8, the first byte of slot 1. -/
theorem dequeue_nonempty_returns_false :
    (_ck_ring_dequeue_mc 8 ⟨0, 2, 2, 4, 3⟩ (fun a => a) (fun _ => 0) 8).map
        (fun d => (d.r, d.ring.c_head, d.data 0)) = some (false, 2, 8) := by
  decide

/-- C6 (the code at the failing input): on the ring with `c_head = 0` and
`p_tail = 1`, `_ck_ring_trydequeue_mc` returns false although its
compare-and-swap took effect: `c_head` is 1 afterwards. -/
theorem trydequeue_nonempty_returns_false :
    (_ck_ring_trydequeue_mc ⟨0, 1, 1, 4, 3⟩ (fun a => a) (fun _ => 0) 8).r = false ∧
    (_ck_ring_trydequeue_mc ⟨0, 1, 1, 4, 3⟩ (fun a => a) (fun _ => 0) 8).ring.c_head = 1 := by
  decide

/-- C7: on a ring with `c_head = p_tail`, `_ck_ring_trydequeue_mc` and
`_ck_ring_dequeue_mc` return false and leave the ring, the backing storage
and the output as they were; so does any number of repeated calls. -/
theorem empty_dequeue_idempotent (fuel n : Nat) (ring : ck_ring) (buffer data : Mem) (ts : Nat)
    (hempty : ring.c_head = ring.p_tail) (hfuel : 0 < fuel) :
    _ck_ring_trydequeue_mc ring buffer data ts =
        { r := false, ring := ring, buffer := buffer, data := data } ∧
    _ck_ring_dequeue_mc fuel ring buffer data ts =
        some { r := false, ring := ring, buffer := buffer, data := data } ∧
    Nat.iterate (fun d : dequeue_result => _ck_ring_trydequeue_mc d.ring d.buffer d.data ts) n
        { r := false, ring := ring, buffer := buffer, data := data } =
      { r := false, ring := ring, buffer := buffer, data := data } ∧
    Nat.iterate (fun o : Option dequeue_result =>
          o.bind (fun d => _ck_ring_dequeue_mc fuel d.ring d.buffer d.data ts)) n
        (some { r := false, ring := ring, buffer := buffer, data := data }) =
      some { r := false, ring := ring, buffer := buffer, data := data } := by
  refine ⟨trydequeue_mc_empty ring buffer data ts hempty,
    dequeue_mc_empty fuel ring buffer data ts hempty hfuel, ?_, ?_⟩
  · induction n with
    | zero => rfl
    | succ m ih =>
      rw [Function.iterate_succ_apply]
      simp only [trydequeue_mc_empty ring buffer data ts hempty]
      exact ih
  · induction n with
    | zero => rfl
    | succ m ih =>
      rw [Function.iterate_succ_apply]
      simp only [Option.bind, dequeue_mc_empty fuel ring buffer data ts hempty hfuel]
      exact ih

/-- C7 at the empty ring of capacity 4 with all counters at 5, three calls. -/
theorem empty_dequeue_idempotent_witness :
    _ck_ring_trydequeue_mc ⟨5, 5, 5, 4, 3⟩ (fun a => a) (fun _ => 0) 8 =
        { r := false, ring := ⟨5, 5, 5, 4, 3⟩, buffer := fun a => a, data := fun _ => 0 } ∧
    _ck_ring_dequeue_mc 1 ⟨5, 5, 5, 4, 3⟩ (fun a => a) (fun _ => 0) 8 =
        some { r := false, ring := ⟨5, 5, 5, 4, 3⟩, buffer := fun a => a, data := fun _ => 0 } :=
  ⟨(empty_dequeue_idempotent 1 3 ⟨5, 5, 5, 4, 3⟩ (fun a => a) (fun _ => 0) 8 rfl (by decide)).1,
   (empty_dequeue_idempotent 1 3 ⟨5, 5, 5, 4, 3⟩ (fun a => a) (fun _ => 0) 8 rfl (by decide)).2.1⟩

/-- C8: for every `n`, so for every 32-bit one, and whatever the ring held
before, `ck_ring_init(ring, n)` leaves `size = n`, `mask = (n - 1) mod 2^32`
and the three counters at 0; the ring is then empty: a following try_dequeue
returns false, and so does a following dequeue, after one pass. -/
theorem ck_ring_init_post (ring0 : ck_ring) (n sizeof_ptr fuel : Nat) (buffer data : Mem)
    (hfuel : 0 < fuel) :
    (ck_ring_init ring0 n).size = n ∧
    ((ck_ring_init ring0 n).mask : Int) = ((n : Int) - 1) % 2 ^ 32 ∧
    (ck_ring_init ring0 n).p_head = 0 ∧
    (ck_ring_init ring0 n).p_tail = 0 ∧
    (ck_ring_init ring0 n).c_head = 0 ∧
    (ck_ring_trydequeue_mpmc sizeof_ptr (ck_ring_init ring0 n) buffer data).r = false ∧
    (ck_ring_dequeue_mpmc sizeof_ptr fuel (ck_ring_init ring0 n) buffer data).map
        (fun d => d.r) = some false := by
  refine ⟨rfl, ?_, rfl, rfl, rfl, ?_, ?_⟩
  · simp only [ck_ring_init, u32_sub]
    omega
  · rw [ck_ring_trydequeue_mpmc, trydequeue_mc_empty _ _ _ _ rfl]
  · rw [ck_ring_dequeue_mpmc, dequeue_mc_empty _ _ _ _ _ rfl hfuel]
    rfl

/-- C8 at `n = 4` on a ring that held 7 in every field. -/
theorem ck_ring_init_post_witness :
    (ck_ring_init ⟨7, 7, 7, 7, 7⟩ 4).size = 4 ∧
    ((ck_ring_init ⟨7, 7, 7, 7, 7⟩ 4).mask : Int) = (((4 : Nat) : Int) - 1) % 2 ^ 32 ∧
    (ck_ring_init ⟨7, 7, 7, 7, 7⟩ 4).p_head = 0 ∧
    (ck_ring_init ⟨7, 7, 7, 7, 7⟩ 4).p_tail = 0 ∧
    (ck_ring_init ⟨7, 7, 7, 7, 7⟩ 4).c_head = 0 ∧
    (ck_ring_trydequeue_mpmc 8 (ck_ring_init ⟨7, 7, 7, 7, 7⟩ 4) (fun a => a) (fun _ => 0)).r
      = false ∧
    (ck_ring_dequeue_mpmc 8 1 (ck_ring_init ⟨7, 7, 7, 7, 7⟩ 4) (fun a => a) (fun _ => 0)).map
        (fun d => d.r) = some false :=
  ck_ring_init_post ⟨7, 7, 7, 7, 7⟩ 4 8 1 (fun a => a) (fun _ => 0) (by decide)

/-- C9: for every capacity `C = 2^k` that fits 32 bits, the bound
`(p_tail - c_head) mod 2^32 <= C - 1` holds after `ck_ring_init(ring, C)`, is
kept by every call of enqueue, enqueue_size, try_dequeue and dequeue that a
thread makes alone, and so holds in every state reachable by such calls. -/
theorem occupancy_invariant (sizeof_ptr k : Nat) (hk : k < 32) :
    (∀ ring0 : ck_ring,
      u32_sub (ck_ring_init ring0 (2 ^ k)).p_tail (ck_ring_init ring0 (2 ^ k)).c_head
        ≤ 2 ^ k - 1) ∧
    (∀ (s : ring_state) (fuel : Nat) (c : ring_call) (res : call_result),
      s.ring.wf → u32_sub s.ring.p_tail s.ring.c_head ≤ 2 ^ k - 1 →
      run_call sizeof_ptr fuel s c = some res →
      res.state.ring.wf ∧ u32_sub res.state.ring.p_tail res.state.ring.c_head ≤ 2 ^ k - 1) ∧
    (∀ s : ring_state, reachable sizeof_ptr (2 ^ k) s →
      u32_sub s.ring.p_tail s.ring.c_head ≤ 2 ^ k - 1) := by
  obtain ⟨h0, hC⟩ := pow_two_capacity k hk
  refine ⟨?_, ?_, ?_⟩
  · intro ring0
    have h := ring_inv_init (2 ^ k) ring0 h0 hC
    exact le_trans h.2.2.1 h.2.2.2
  · intro s fuel c res hwf h hrun
    exact occupancy_call sizeof_ptr fuel (2 ^ k - 1) s c res hwf h hrun
  · intro s hs
    have h := ring_inv_reachable sizeof_ptr (2 ^ k) h0 hC s hs
    exact le_trans h.2.2.1 h.2.2.2

/-- C9 at capacity 4, in the state left by one enqueue after the
initialisation. -/
theorem occupancy_invariant_witness :
    reachable 8 (2 ^ 2) { ring := ⟨0, 0, 3, 4, 3⟩, buffer := fun _ => 0 } ∧
    u32_sub (0 : Nat) 0 ≤ 2 ^ 2 - 1 :=
  have hr : reachable 8 (2 ^ 2) { ring := ⟨0, 0, 3, 4, 3⟩, buffer := fun _ => 0 } :=
    reachable.call { ring := ck_ring_init ⟨7, 7, 7, 7, 7⟩ (2 ^ 2), buffer := fun _ => 0 } 8
      (.enqueue (fun _ => 1))
      { r := false, state := { ring := ⟨0, 0, 3, 4, 3⟩, buffer := fun _ => 0 }, data := none }
      (reachable.init ⟨7, 7, 7, 7, 7⟩ (fun _ => 0)) rfl
  ⟨hr, (occupancy_invariant 8 2 (by decide)).2.2 _ hr⟩

/-- C10: for every capacity `C = 2^k` that fits 32 bits, the ordering
`(p_tail - c_head) mod 2^32 <= (p_head - c_head) mod 2^32 <= C - 1` holds
after `ck_ring_init(ring, C)`, is kept by every call that a thread makes
alone on a ring whose mask is `C - 1`, and so holds in every state reachable
by such calls. -/
theorem reservations_lead_publications (sizeof_ptr k : Nat) (hk : k < 32) :
    (∀ ring0 : ck_ring,
      u32_sub (ck_ring_init ring0 (2 ^ k)).p_tail (ck_ring_init ring0 (2 ^ k)).c_head
        ≤ u32_sub (ck_ring_init ring0 (2 ^ k)).p_head (ck_ring_init ring0 (2 ^ k)).c_head ∧
      u32_sub (ck_ring_init ring0 (2 ^ k)).p_head (ck_ring_init ring0 (2 ^ k)).c_head
        ≤ 2 ^ k - 1) ∧
    (∀ (s : ring_state) (fuel : Nat) (c : ring_call) (res : call_result),
      s.ring.wf → s.ring.mask = 2 ^ k - 1 →
      u32_sub s.ring.p_tail s.ring.c_head ≤ u32_sub s.ring.p_head s.ring.c_head →
      u32_sub s.ring.p_head s.ring.c_head ≤ 2 ^ k - 1 →
      run_call sizeof_ptr fuel s c = some res →
      res.state.ring.wf ∧ res.state.ring.mask = 2 ^ k - 1 ∧
      u32_sub res.state.ring.p_tail res.state.ring.c_head
        ≤ u32_sub res.state.ring.p_head res.state.ring.c_head ∧
      u32_sub res.state.ring.p_head res.state.ring.c_head ≤ 2 ^ k - 1) ∧
    (∀ s : ring_state, reachable sizeof_ptr (2 ^ k) s →
      u32_sub s.ring.p_tail s.ring.c_head ≤ u32_sub s.ring.p_head s.ring.c_head ∧
      u32_sub s.ring.p_head s.ring.c_head ≤ 2 ^ k - 1) := by
  obtain ⟨h0, hC⟩ := pow_two_capacity k hk
  refine ⟨?_, ?_, ?_⟩
  · intro ring0
    exact (ring_inv_init (2 ^ k) ring0 h0 hC).2.2
  · intro s fuel c res hwf hm h1 h2 hrun
    exact ring_inv_call sizeof_ptr fuel (2 ^ k) s c res ⟨hwf, hm, h1, h2⟩ hrun
  · intro s hs
    exact (ring_inv_reachable sizeof_ptr (2 ^ k) h0 hC s hs).2.2

/-- C10 at capacity 4, in the state left by one enqueue and one dequeue after
the initialisation. -/
theorem reservations_lead_publications_witness :
    u32_sub (0 : Nat) 0 ≤ u32_sub 3 0 ∧ u32_sub 3 0 ≤ 2 ^ 2 - 1 :=
  (reservations_lead_publications 8 2 (by decide)).2.2
    { ring := ⟨0, 0, 3, 4, 3⟩, buffer := fun _ => 0 }
    (reachable.call { ring := ⟨0, 0, 3, 4, 3⟩, buffer := fun _ => 0 } 8
      (.dequeue (fun _ => 0))
      { r := false, state := { ring := ⟨0, 0, 3, 4, 3⟩, buffer := fun _ => 0 },
        data := some (fun _ => 0) }
      (reachable.call { ring := ck_ring_init ⟨7, 7, 7, 7, 7⟩ (2 ^ 2), buffer := fun _ => 0 } 8
        (.enqueue (fun _ => 1))
        { r := false, state := { ring := ⟨0, 0, 3, 4, 3⟩, buffer := fun _ => 0 }, data := none }
        (reachable.init ⟨7, 7, 7, 7, 7⟩ (fun _ => 0)) rfl)
      rfl)

/-- C11 (the code at the failing input): on a ring initialised with capacity
4, which holds no element (`p_tail - c_head = 0`), `ck_ring_enqueue_mpmc_size`
returns false and stores 3 through `size`; the boolean and the ring are those
of `ck_ring_enqueue_mpmc`. -/
theorem enqueue_size_reports_reserved :
    u32_sub (ck_ring_init ⟨0, 0, 0, 0, 0⟩ 4).p_tail (ck_ring_init ⟨0, 0, 0, 0, 0⟩ 4).c_head = 0 ∧
    (ck_ring_enqueue_mpmc_size 8 8 (ck_ring_init ⟨0, 0, 0, 0, 0⟩ 4) (fun _ => 0) (fun _ => 1)
        0).map (fun e => (e.r, e.ring, e.size)) = some (false, ⟨0, 0, 3, 4, 3⟩, 3) ∧
    (ck_ring_enqueue_mpmc 8 8 (ck_ring_init ⟨0, 0, 0, 0, 0⟩ 4) (fun _ => 0) (fun _ => 1)).map
        (fun e => (e.r, e.ring)) = some (false, ⟨0, 0, 3, 4, 3⟩) := by
  decide

/-- C13 (the code at the failing input): on the quiescent ring left by the
initialisation with capacity 4 (`p_head = p_tail = 0`, `c_head = 0`,
`0 < mask`), `_ck_ring_enqueue_mp` returns false, leaves `p_head = 3` and
`p_tail = 0`, and byte 0 of slot 0 still holds 0, not the entry's 1. -/
theorem enqueue_quiescent_returns_false :
    (_ck_ring_enqueue_mp 8 (ck_ring_init ⟨0, 0, 0, 0, 0⟩ 4) (fun _ => 0) (fun _ => 1) 8
        false).map (fun e => (e.r, e.ring, e.buffer 0)) = some (false, ⟨0, 0, 3, 4, 3⟩, 0) := by
  decide

/-- C14 (the code at the failing inputs): with target 0, old 0 and new 1 both
adapters swap and return false, and `ck_pr_cas_uint_value` leaves 1 in its
output; with target 5, old 0 and new 1 both leave the target at 5 and return
true, and `ck_pr_cas_uint_value` leaves 1, not 5, in its output. -/
theorem cas_adapters_return_inverted :
    ck_pr_cas_uint_value 0 0 1 = { target := 1, v := 1, ret := false } ∧
    ck_pr_cas_uint 0 0 1 = { target := 1, ret := false } ∧
    ck_pr_cas_uint_value 5 0 1 = { target := 5, v := 1, ret := true } ∧
    ck_pr_cas_uint 5 0 1 = { target := 5, ret := true } := by
  decide

/-- C15: `ck_ring_init` with capacity `2^j`, `j <= 31`, sets the mask to
`2^j - 1`; on a ring whose mask is `2^j - 1` the slot of every
counter value `k` is `k mod 2^j`, below `2^j`; the slot of the next counter
value, `k + 1` reduced modulo `2^32`, is the next slot modulo `2^j`, also
when `k = 2^32 - 1`; and the `2^j` counter values that follow `k` have
distinct slots. -/
theorem slot_index_wraparound (j : Nat) (hj : j ≤ 31) (ring0 ring : ck_ring)
    (hmask : ring.mask = 2 ^ j - 1) (k : Nat) :
    (ck_ring_init ring0 (2 ^ j)).mask = 2 ^ j - 1 ∧
    slot_index ring k = k % 2 ^ j ∧
    slot_index ring k < 2 ^ j ∧
    slot_index ring (u32_add k 1) = (slot_index ring k + 1) % 2 ^ j ∧
    (∀ i1 i2 : Nat, i1 < 2 ^ j → i2 < 2 ^ j →
      slot_index ring (u32_add k i1) = slot_index ring (u32_add k i2) → i1 = i2) := by
  have hdvd : 2 ^ j ∣ 2 ^ 32 := pow_dvd_pow 2 (by omega)
  have hpos : 0 < 2 ^ j := Nat.pos_pow_of_pos j (by decide)
  have hidx : ∀ n : Nat, slot_index ring n = n % 2 ^ j := by
    intro n
    simp only [slot_index, hmask, Nat.and_pow_two_sub_one_eq_mod]
  have hadd : ∀ i : Nat, slot_index ring (u32_add k i) = (k + i) % 2 ^ j := by
    intro i
    rw [hidx, u32_add, Nat.mod_mod_of_dvd _ hdvd]
  refine ⟨?_, hidx k, ?_, ?_, ?_⟩
  · have hC := (pow_two_capacity j (by omega)).2
    simp only [ck_ring_init, u32_sub]
    omega
  · rw [hidx]
    exact Nat.mod_lt _ hpos
  · rw [hadd, hidx, Nat.add_mod k 1, Nat.add_mod (k % 2 ^ j) 1, Nat.mod_mod]
  · intro i1 i2 h1 h2 h
    rw [hadd, hadd] at h
    have hm : i1 % 2 ^ j = i2 % 2 ^ j := Nat.ModEq.add_left_cancel' k h
    rwa [Nat.mod_eq_of_lt h1, Nat.mod_eq_of_lt h2] at hm

/-- C15 at capacity 4 and the last counter value `2^32 - 1`: its slot is 3
and the slot of the value after it is 0. -/
theorem slot_index_wraparound_witness :
    slot_index ⟨0, 0, 0, 4, 3⟩ 4294967295 = 4294967295 % 2 ^ 2 ∧
    slot_index ⟨0, 0, 0, 4, 3⟩ (u32_add 4294967295 1)
      = (slot_index ⟨0, 0, 0, 4, 3⟩ 4294967295 + 1) % 2 ^ 2 :=
  ⟨(slot_index_wraparound 2 (by decide) ⟨7, 7, 7, 7, 7⟩ ⟨0, 0, 0, 4, 3⟩ rfl 4294967295).2.1,
   (slot_index_wraparound 2 (by decide) ⟨7, 7, 7, 7, 7⟩ ⟨0, 0, 0, 4, 3⟩ rfl 4294967295).2.2.2.1⟩

/-- C16: in every state reachable by one thread from `ck_ring_init` with
capacity `2^k`, a call of `_ck_ring_enqueue_mp` returns as soon as the fuel
exceeds `mask - (p_head - c_head)`, after that many passes plus one of the
reservation loop and without entering the publish spin, and a call of
`_ck_ring_dequeue_mc` returns as soon as the fuel exceeds
`(p_tail - c_head) mod 2^32`; both measures are below `2^k`.
`_ck_ring_trydequeue_mc` has no loop: its embedding takes no fuel. -/
theorem calls_terminate (sizeof_ptr k : Nat) (hk : k < 32) (s : ring_state)
    (hs : reachable sizeof_ptr (2 ^ k) s) (entry data : Mem) (ts : Nat) (size_nonnull : Bool)
    (fuel : Nat) :
    (s.ring.mask - u32_sub s.ring.p_head s.ring.c_head < fuel →
      ∃ e : enqueue_result,
        _ck_ring_enqueue_mp fuel s.ring s.buffer entry ts size_nonnull = some e ∧
        e.r = false ∧
        e.passes = s.ring.mask - u32_sub s.ring.p_head s.ring.c_head + 1) ∧
    (u32_sub s.ring.p_tail s.ring.c_head < fuel →
      ∃ d : dequeue_result, _ck_ring_dequeue_mc fuel s.ring s.buffer data ts = some d) ∧
    s.ring.mask - u32_sub s.ring.p_head s.ring.c_head < 2 ^ k ∧
    u32_sub s.ring.p_tail s.ring.c_head < 2 ^ k := by
  obtain ⟨h0, hC⟩ := pow_two_capacity k hk
  obtain ⟨hwf, hm, ht, hp⟩ := ring_inv_reachable sizeof_ptr (2 ^ k) h0 hC s hs
  refine ⟨?_, ?_, ?_, ?_⟩
  · intro hf
    rw [enqueue_mp_alone _ _ _ _ _ _ hwf, if_pos hf]
    exact ⟨_, rfl, rfl, rfl⟩
  · intro hf
    rw [dequeue_mc_alone _ _ _ _ _ hwf, if_pos hf]
    exact ⟨_, rfl⟩
  · omega
  · omega

/-- C16 at capacity 4, in the state left by the initialisation, with fuel 4. -/
theorem calls_terminate_witness :
    (∃ e : enqueue_result,
      _ck_ring_enqueue_mp 4 (ck_ring_init ⟨7, 7, 7, 7, 7⟩ (2 ^ 2)) (fun _ => 0) (fun _ => 1) 8
        false = some e ∧ e.r = false ∧
      e.passes = (ck_ring_init ⟨7, 7, 7, 7, 7⟩ (2 ^ 2)).mask
        - u32_sub (ck_ring_init ⟨7, 7, 7, 7, 7⟩ (2 ^ 2)).p_head
            (ck_ring_init ⟨7, 7, 7, 7, 7⟩ (2 ^ 2)).c_head + 1) ∧
    (∃ d : dequeue_result,
      _ck_ring_dequeue_mc 4 (ck_ring_init ⟨7, 7, 7, 7, 7⟩ (2 ^ 2)) (fun _ => 0) (fun _ => 0) 8
        = some d) :=
  have h := calls_terminate 8 2 (by decide)
    { ring := ck_ring_init ⟨7, 7, 7, 7, 7⟩ (2 ^ 2), buffer := fun _ => 0 }
    (reachable.init ⟨7, 7, 7, 7, 7⟩ (fun _ => 0)) (fun _ => 1) (fun _ => 0) 8 false 4
  ⟨h.1 (by decide), h.2.1 (by decide)⟩

/-- C17: `ck_pr_cas_uint_value` leaves the attempted new value in its output
whether or not the target equalled `old`; when the target differed from
`old` the target keeps its value and the output holds `new`, which is the
target's value only if `new` happens to equal it. -/
theorem cas_value_output_is_new (target old new : Nat) :
    (ck_pr_cas_uint_value target old new).v = new ∧
    (target ≠ old →
      (ck_pr_cas_uint_value target old new).target = target ∧
      (ck_pr_cas_uint_value target old new).v = new ∧
      (new ≠ target →
        (ck_pr_cas_uint_value target old new).v ≠ (ck_pr_cas_uint_value target old new).target)) := by
  refine ⟨rfl, fun h => ⟨?_, rfl, ?_⟩⟩
  · simp [ck_pr_cas_uint_value, atomic_cmpxchg, h]
  · intro hn
    simp [ck_pr_cas_uint_value, atomic_cmpxchg, h, hn]

/-- C17 at target 5, old 0, new 1: the output holds 1 and the target holds 5. -/
theorem cas_value_output_is_new_witness :
    (ck_pr_cas_uint_value 5 0 1).target = 5 ∧ (ck_pr_cas_uint_value 5 0 1).v = 1 ∧
    (ck_pr_cas_uint_value 5 0 1).v ≠ (ck_pr_cas_uint_value 5 0 1).target :=
  have h := (cas_value_output_is_new 5 0 1).2 (by decide)
  ⟨h.1, h.2.1, h.2.2 (by decide)⟩

/-- C18: run by a thread alone on any ring of 32-bit fields, once the fuel
exceeds `mask - (p_head - c_head)`, `_ck_ring_enqueue_mp` returns false,
leaves the backing storage, `p_tail` and `c_head` as they were, and leaves
`p_head = c_head + mask` (modulo `2^32`) if `(p_head - c_head) mod 2^32 < mask`
held on entry, else `p_head` as it was.  Hence in every state reachable by one
thread from `ck_ring_init`, `p_tail` is 0 and every try_dequeue and dequeue
returns false. -/
theorem sequential_enqueue_never_publishes (fuel : Nat) (ring : ck_ring) (buffer entry : Mem)
    (ts : Nat) (size_nonnull : Bool) (hwf : ring.wf)
    (hfuel : ring.mask - u32_sub ring.p_head ring.c_head < fuel) :
    (∃ e : enqueue_result,
      _ck_ring_enqueue_mp fuel ring buffer entry ts size_nonnull = some e ∧
      e.r = false ∧ e.buffer = buffer ∧ e.ring.p_tail = ring.p_tail ∧
      e.ring.c_head = ring.c_head ∧
      (u32_sub ring.p_head ring.c_head < ring.mask →
        e.ring.p_head = u32_add ring.c_head ring.mask) ∧
      (¬ u32_sub ring.p_head ring.c_head < ring.mask → e.ring.p_head = ring.p_head)) ∧
    (∀ (sizeof_ptr C : Nat) (s : ring_state), C < 2 ^ 32 → reachable sizeof_ptr C s →
      s.ring.p_tail = 0 ∧
      (∀ data : Mem, (ck_ring_trydequeue_mpmc sizeof_ptr s.ring s.buffer data).r = false) ∧
      (∀ (n : Nat) (data : Mem), ∃ d : dequeue_result,
        ck_ring_dequeue_mpmc sizeof_ptr (n + 1) s.ring s.buffer data = some d ∧ d.r = false)) := by
  constructor
  · rw [enqueue_mp_alone _ _ _ _ _ _ hwf, if_pos hfuel]
    refine ⟨_, rfl, rfl, rfl, rfl, rfl, ?_, ?_⟩
    · intro h
      simp only [reserved_head, h, if_true]
    · intro h
      simp only [reserved_head, h, if_false]
  · intro sizeof_ptr C s hC hs
    obtain ⟨hw, ht, hc⟩ := unpublished_reachable sizeof_ptr C hC s hs
    have he : s.ring.c_head = s.ring.p_tail := hc.trans ht.symm
    refine ⟨ht, ?_, ?_⟩
    · intro data
      rw [ck_ring_trydequeue_mpmc, trydequeue_mc_empty _ _ _ _ he]
    · intro n data
      rw [ck_ring_dequeue_mpmc, dequeue_mc_empty _ _ _ _ _ he (Nat.succ_pos n)]
      exact ⟨_, rfl, rfl⟩

/-- C18 at the ring left by the initialisation with capacity 4, fuel 4: the
call returns false and `p_head` ends at `0 + 3`. -/
theorem sequential_enqueue_never_publishes_witness :
    ∃ e : enqueue_result,
      _ck_ring_enqueue_mp 4 ⟨0, 0, 0, 4, 3⟩ (fun _ => 0) (fun _ => 1) 8 false = some e ∧
      e.r = false ∧ e.buffer = (fun _ => 0) ∧ e.ring.p_tail = 0 ∧ e.ring.c_head = 0 ∧
      (u32_sub 0 0 < 3 → e.ring.p_head = u32_add 0 3) ∧
      (¬ u32_sub 0 0 < 3 → e.ring.p_head = 0) :=
  (sequential_enqueue_never_publishes 4 ⟨0, 0, 0, 4, 3⟩ (fun _ => 0) (fun _ => 1) 8 false
    (by decide) (by decide)).1

/-- C19: run by a thread alone on any ring of 32-bit fields, once the fuel
exceeds `(p_tail - c_head) mod 2^32`, `_ck_ring_dequeue_mc` returns false and
leaves `c_head = p_tail`; when `c_head != p_tail` held on entry, the `ts`
bytes of the output are those of slot `(p_tail - 1) & mask`, at the byte
offset `ts * ((p_tail - 1) & mask)` that the code computes.  With
`c_head != p_tail`, `_ck_ring_trydequeue_mc` returns false and leaves
`c_head` advanced by 1. -/
theorem sequential_dequeue_drains (fuel : Nat) (ring : ck_ring) (buffer data : Mem) (ts : Nat)
    (hwf : ring.wf) (hfuel : u32_sub ring.p_tail ring.c_head < fuel) :
    (∃ d : dequeue_result,
      _ck_ring_dequeue_mc fuel ring buffer data ts = some d ∧
      d.r = false ∧ d.ring.c_head = ring.p_tail ∧
      (ring.c_head ≠ ring.p_tail → ∀ i : Nat, i < ts →
        d.data i = buffer (slot_offset ring ts (u32_sub ring.p_tail 1) + i))) ∧
    (ring.c_head ≠ ring.p_tail →
      (_ck_ring_trydequeue_mc ring buffer data ts).r = false ∧
      (_ck_ring_trydequeue_mc ring buffer data ts).ring.c_head = u32_add ring.c_head 1) := by
  constructor
  · rw [dequeue_mc_alone _ _ _ _ _ hwf, if_pos hfuel]
    refine ⟨_, rfl, rfl, rfl, ?_⟩
    intro hne i hi
    simp only [hne, if_false, memcpy]
    rw [if_pos ⟨Nat.zero_le i, by omega⟩]
    rfl
  · intro hne
    rw [trydequeue_mc_alone _ _ _ _ hne]
    exact ⟨rfl, rfl⟩

/-- C19 at the ring with `c_head = 0`, `p_tail = 2`, capacity 4, byte `i` of
the storage holding `i`, elements of 8 bytes. -/
theorem sequential_dequeue_drains_witness :
    (∃ d : dequeue_result,
      _ck_ring_dequeue_mc 3 ⟨0, 2, 2, 4, 3⟩ (fun a => a) (fun _ => 0) 8 = some d ∧
      d.r = false ∧ d.ring.c_head = 2 ∧ d.data 0 = 8) ∧
    (_ck_ring_trydequeue_mc ⟨0, 2, 2, 4, 3⟩ (fun a => a) (fun _ => 0) 8).r = false ∧
    (_ck_ring_trydequeue_mc ⟨0, 2, 2, 4, 3⟩ (fun a => a) (fun _ => 0) 8).ring.c_head
      = u32_add 0 1 :=
  have h := sequential_dequeue_drains 3 ⟨0, 2, 2, 4, 3⟩ (fun a => a) (fun _ => 0) 8
    (by decide) (by decide)
  ⟨h.1.elim fun d hd => ⟨d, hd.1, hd.2.1, hd.2.2.1, hd.2.2.2 (by decide) 0 (by decide)⟩,
   h.2 (by decide)⟩

/-- C20: on every ring state and input, a call of `_ck_ring_enqueue_mp` that
returns leaves `c_head`, `size` and `mask` as they were, returns false and
leaves every byte of the backing storage as it was: run to completion by one
thread it never reaches the copy to slot `(p & mask)`, so it writes no slot
at all, hence at most the one of the claim.
`_ck_ring_trydequeue_mc` and a returning `_ck_ring_dequeue_mc` leave `p_head`,
`p_tail`, `size`, `mask` and the backing storage as they were; and no call on
the public interface changes `size` or `mask`. -/
theorem call_frames (fuel : Nat) (ring : ck_ring) (buffer entry data : Mem) (ts : Nat)
    (size_nonnull : Bool) :
    (∀ e : enqueue_result,
      _ck_ring_enqueue_mp fuel ring buffer entry ts size_nonnull = some e →
      e.ring.c_head = ring.c_head ∧ e.ring.size = ring.size ∧ e.ring.mask = ring.mask ∧
      e.r = false ∧ e.buffer = buffer) ∧
    ((_ck_ring_trydequeue_mc ring buffer data ts).ring.p_head = ring.p_head ∧
      (_ck_ring_trydequeue_mc ring buffer data ts).ring.p_tail = ring.p_tail ∧
      (_ck_ring_trydequeue_mc ring buffer data ts).ring.size = ring.size ∧
      (_ck_ring_trydequeue_mc ring buffer data ts).ring.mask = ring.mask ∧
      (_ck_ring_trydequeue_mc ring buffer data ts).buffer = buffer) ∧
    (∀ d : dequeue_result, _ck_ring_dequeue_mc fuel ring buffer data ts = some d →
      d.ring.p_head = ring.p_head ∧ d.ring.p_tail = ring.p_tail ∧ d.ring.size = ring.size ∧
      d.ring.mask = ring.mask ∧ d.buffer = buffer) ∧
    (∀ (sizeof_ptr : Nat) (c : ring_call) (res : call_result),
      run_call sizeof_ptr fuel { ring := ring, buffer := buffer } c = some res →
      res.state.ring.size = ring.size ∧ res.state.ring.mask = ring.mask) := by
  refine ⟨?_, trydequeue_mc_frame ring buffer data ts, ?_, ?_⟩
  · intro e h
    obtain ⟨h1, h2, h3, _⟩ := enqueue_mp_frame fuel ring buffer entry ts size_nonnull e h
    obtain ⟨hr, hb⟩ := enqueue_mp_writes_nothing fuel ring buffer entry ts size_nonnull e h
    exact ⟨h1, h2, h3, hr, hb⟩
  · intro d h
    exact dequeue_mc_loop_frame fuel ring buffer data ts _ d h
  · intro sizeof_ptr c res hrun
    cases c with
    | enqueue en =>
      simp only [run_call, ck_ring_enqueue_mpmc] at hrun
      cases he : _ck_ring_enqueue_mp fuel ring buffer en sizeof_ptr false with
      | none => simp [he] at hrun
      | some e =>
        simp only [he, Option.some.injEq] at hrun
        subst hrun
        obtain ⟨_, h2, h3, _⟩ := enqueue_mp_frame fuel ring buffer en sizeof_ptr false e he
        exact ⟨h2, h3⟩
    | enqueue_size en sz =>
      simp only [run_call, ck_ring_enqueue_mpmc_size, _ck_ring_enqueue_mp_size] at hrun
      cases he : _ck_ring_enqueue_mp fuel ring buffer en sizeof_ptr true with
      | none => simp [he] at hrun
      | some e =>
        simp only [he, Option.some.injEq] at hrun
        subst hrun
        obtain ⟨_, h2, h3, _⟩ := enqueue_mp_frame fuel ring buffer en sizeof_ptr true e he
        exact ⟨h2, h3⟩
    | trydequeue dt =>
      simp only [run_call, ck_ring_trydequeue_mpmc, Option.some.injEq] at hrun
      subst hrun
      obtain ⟨_, _, h3, h4, _⟩ := trydequeue_mc_frame ring buffer dt sizeof_ptr
      exact ⟨h3, h4⟩
    | dequeue dt =>
      simp only [run_call, ck_ring_dequeue_mpmc] at hrun
      cases hd : _ck_ring_dequeue_mc fuel ring buffer dt sizeof_ptr with
      | none => simp [hd] at hrun
      | some d =>
        simp only [hd, Option.some.injEq] at hrun
        subst hrun
        obtain ⟨_, _, h3, h4, _⟩ := dequeue_mc_loop_frame fuel ring buffer dt sizeof_ptr _ d hd
        exact ⟨h3, h4⟩

/-- C20 at the ring left by the initialisation with capacity 4, byte `i` of
the storage holding `i`: the enqueue returns there, returns false and leaves `c_head`, `size`, `mask` and the
backing storage; the dequeue on the ring with `c_head = 1`, `p_tail = 2`
returns and leaves `p_head`, `p_tail`, `size`, `mask` and the backing
storage. -/
theorem call_frames_witness :
    (∃ e : enqueue_result,
      _ck_ring_enqueue_mp 8 ⟨0, 0, 0, 4, 3⟩ (fun a => a) (fun _ => 1) 8 false = some e ∧
      e.ring.c_head = 0 ∧ e.ring.size = 4 ∧ e.ring.mask = 3 ∧
      e.r = false ∧ e.buffer = (fun a => a)) ∧
    (∃ d : dequeue_result,
      _ck_ring_dequeue_mc 8 ⟨1, 2, 2, 4, 3⟩ (fun a => a) (fun _ => 0) 8 = some d ∧
      d.ring.p_head = 2 ∧ d.ring.p_tail = 2 ∧ d.ring.size = 4 ∧ d.ring.mask = 3 ∧
      d.buffer = (fun a => a)) :=
  have h := call_frames 8 ⟨0, 0, 0, 4, 3⟩ (fun a => a) (fun _ => 1) (fun _ => 0) 8 false
  have g := call_frames 8 ⟨1, 2, 2, 4, 3⟩ (fun a => a) (fun _ => 1) (fun _ => 0) 8 false
  have he := h.1 { r := false, ring := ⟨0, 0, 3, 4, 3⟩, buffer := fun a => a, size := none,
                   passes := 4, cas := 3 } rfl
  have hd := g.2.2.1 { r := false, ring := ⟨2, 2, 2, 4, 3⟩, buffer := fun a => a,
                       data := memcpy (fun _ => 0) 0 (fun a => a) 8 8 } rfl
  ⟨⟨_, rfl, he.1, he.2.1, he.2.2.1, he.2.2.2.1, he.2.2.2.2⟩,
   ⟨_, rfl, hd.1, hd.2.1, hd.2.2.1, hd.2.2.2.1, hd.2.2.2.2⟩⟩

end MpmcRing
